import Mathlib

/-!
Shallow embedding of `FileSearch.py`, a directory-scoped text search
utility.  Pure functions of the script (`merge_ranges`, the literal branch
of `find_matches`, the context-window arithmetic of `main`) are translated
directly; the filesystem, Python's `re` module and the output stream are
abstracted as explicit parameters and traces:

* a file is a pair of read attempts (strict utf-8, then lossy), since the
  script only observes a file through `path.read_text(...).splitlines()`;
* regex compilation is an abstract `compile : String → Bool → Option
  (String → Bool)` (pattern, ignore-case flag ↦ matcher), `none` modelling
  a pattern on which `re.compile` raises `re.error`;
* the output file is modelled as the list of window blocks written
  (`WinRecord`), plus a flag for the "Stopped early" notice.

Python integers are `Int`; line indices produced by enumeration are `Nat`
and are cast to `Int` where the script does window arithmetic on them.
-/

namespace FileSearch

/-! ### Range merger (`merge_ranges`, FileSearch.py lines 40-51) -/

/-- Lexicographic order on integer pairs: the comparison `ranges.sort()`
performs on Python 2-tuples. -/
def lexLe (a b : Int × Int) : Bool :=
  a.1 < b.1 || (a.1 == b.1 && a.2 ≤ b.2)

/-- Loop body of `merge_ranges` (lines 44-50): `cur` is `merged[-1]`, the
accumulator window; extending `merged[-1]` in place becomes carrying `cur`,
and appending to `merged` becomes emitting `cur` into the result. -/
def mergeLoop (cur : Int × Int) : List (Int × Int) → List (Int × Int)
  | [] => [cur]
  | (s, e) :: rest =>
    if s ≤ cur.2 + 1 then mergeLoop (cur.1, max cur.2 e) rest
    else cur :: mergeLoop (s, e) rest

/-- Insertion of a window into a lexicographically sorted list. -/
def insertSorted (a : Int × Int) : List (Int × Int) → List (Int × Int)
  | [] => [a]
  | b :: bs => if lexLe a b then a :: b :: bs else b :: insertSorted a bs

/-- Model of `ranges.sort()`: Python's sort is a stable sort under the
full lexicographic tuple comparison, and two tuples comparing equal under
that total order are identical, so the sorted permutation is unique and
any sorting algorithm for `lexLe` produces exactly the list `list.sort()`
produces; insertion sort is used because it is structurally recursive. -/
def sortRanges : List (Int × Int) → List (Int × Int)
  | [] => []
  | a :: as => insertSorted a (sortRanges as)

/-- Translation of `merge_ranges` (lines 40-51): sort lexicographically
(`ranges.sort()`), then fold, fusing any window whose start is at most the
current end plus one. -/
def merge_ranges (ranges : List (Int × Int)) : List (Int × Int) :=
  match sortRanges ranges with
  | [] => []
  | r :: rs => mergeLoop r rs

/-- Membership of an index in a window, `w.1 ≤ x ≤ w.2`. -/
def covers (w : Int × Int) (x : Int) : Prop := w.1 ≤ x ∧ x ≤ w.2

/-- Membership of an index in the union of a list of windows. -/
def coveredBy (l : List (Int × Int)) (x : Int) : Prop := ∃ w ∈ l, covers w x

/-! ### Literal substring matching (`find_matches`, lines 33-38) -/

/-- Check that `needle` occurs at the head of `hay`. -/
def headMatch : List Char → List Char → Bool
  | [], _ => true
  | _ :: _, [] => false
  | a :: as, b :: bs => a == b && headMatch as bs

/-- Substring containment on character lists: Python's `needle in hay`. -/
def containsSub (needle : List Char) : List Char → Bool
  | [] => headMatch needle []
  | b :: bs => headMatch needle (b :: bs) || containsSub needle bs

/-- Simple per-character lowercase fold: the model of Python's
`str.lower()` (the spec notes it is a plain lowercase transform applied to
each character, not a full Unicode case folding). -/
def lowerStr (s : String) : String := ⟨s.data.map Char.toLower⟩

/-- Literal test for one line (lines 34-37): lowercase both sides when
`ignore_case` (Python's `str.lower`, modelled by `lowerStr`), then test
substring containment. -/
def literalHit (pattern line : String) (ignore_case : Bool) : Bool :=
  let needle := if ignore_case then lowerStr pattern else pattern
  let hay := if ignore_case then lowerStr line else line
  containsSub needle.data hay.data

/-- Result of `find_matches`: either `re.compile` raised `re.error`, or the
list of matching zero-based line indices the generator yields. -/
inductive MatchResult where
  | regexErr
  | hits (idxs : List Nat)
deriving DecidableEq, Repr

/-- Translation of `find_matches` (lines 23-38), with regex compilation
abstracted by `compile`.  In regex mode the pattern is compiled once and
each line is tested with `rx.search`; in literal mode each line is tested
by substring containment.  Both branches enumerate lines in order and
yield the indices of the ones that match. -/
def find_matches (compile : String → Bool → Option (String → Bool))
    (lines : List String) (pattern : String)
    (use_regex ignore_case : Bool) : MatchResult :=
  if use_regex then
    match compile pattern ignore_case with
    | none => .regexErr
    | some rx => .hits ((lines.enum.filter (fun p => rx p.2)).map Prod.fst)
  else
    .hits ((lines.enum.filter (fun p => literalHit pattern p.2 ignore_case)).map Prod.fst)

/-! ### Line decoder (`read_text_lines`, lines 13-21) -/

/-- Outcome of one `path.read_text(...)` call (already split into lines):
success, a `UnicodeDecodeError`, or any other exception (e.g. `OSError`). -/
inductive Attempt where
  | ok (lines : List String)
  | unicodeError
  | otherError
deriving DecidableEq, Repr

/-- Behaviour of a file under the two reads the script can perform. -/
structure FileModel where
  strictRead : Attempt
  lossyRead : Attempt
deriving DecidableEq, Repr

/-- What `read_text_lines` does for a file: return lines, return `None`
(the file is skipped), or let an exception escape to `main`. -/
inductive ReadOutcome where
  | lines (ls : List String)
  | skipped
  | raised
deriving DecidableEq, Repr

/-- Translation of `read_text_lines` (lines 13-21).  Only
`UnicodeDecodeError` is caught around the strict read, so any other
exception there escapes; around the lossy retry `except Exception` catches
everything and returns `None`. -/
def read_text_lines (f : FileModel) : ReadOutcome :=
  match f.strictRead with
  | .ok ls => .lines ls
  | .unicodeError =>
    match f.lossyRead with
    | .ok ls => .lines ls
    | _ => .skipped
  | .otherError => .raised

/-! ### Main loop (`main`, lines 53-109) -/

/-- Command-line arguments of `main` that affect the model (`root` and
`out` are absorbed into the file list and the output trace). -/
structure Args where
  pattern : String
  context : Int
  useRegex : Bool
  ignoreCase : Bool
  noMerge : Bool
  maxMatches : Int
deriving Repr

/-- Context window for one hit (lines 82-83):
`s = max(0, idx - context)`, `e = min(len(lines) - 1, idx + context)`. -/
def contextWindow (numLines : Nat) (context : Int) (idx : Nat) : Int × Int :=
  (max 0 ((idx : Int) - context), min ((numLines : Int) - 1) ((idx : Int) + context))

/-- Per-hit context ranges of one file (lines 80-84). -/
def buildRanges (numLines : Nat) (context : Int) (hitIdxs : List Nat) : List (Int × Int) :=
  hitIdxs.map (contextWindow numLines context)

/-- One window block written to the output file (lines 93-102): the file's
index in enumeration order, the window, and the sorted zero-based matched
indices inside it (the script prints them 1-based as `MATCH_LINES`). -/
structure WinRecord where
  fidx : Nat
  win : Int × Int
  matchSet : List Nat
deriving DecidableEq, Repr

/-- Uncaught exceptions that abort `main`: `re.error` from `find_matches`,
or a read error escaping `read_text_lines`. -/
inductive RunError where
  | regexError
  | readError
deriving DecidableEq, Repr

/-- Observable trace of a run: which files were read (indices, in order),
the window blocks written, whether the "Stopped early" notice was written,
and `none` for normal termination or the uncaught exception. -/
structure RunResult where
  filesRead : List Nat
  records : List WinRecord
  stopped : Bool
  outcome : Option RunError
deriving Repr

/-- Writer loop over one file's windows (lines 89-107): for each window
compute `match_set`, write the block, add `len(match_set)` to the running
total, and stop the whole run when `max_matches` is set (non-zero, Python
truthiness) and the total reaches it.  Returns the blocks written, the new
total, and whether the run stopped early. -/
def processWindows (fidx : Nat) (hitIdxs : List Nat) (maxMatches : Int) :
    List (Int × Int) → Int → List WinRecord × Int × Bool
  | [], total => ([], total, false)
  | (s, e) :: rest, total =>
    let mset := hitIdxs.filter (fun (i : Nat) => decide (s ≤ (i : Int)) && decide ((i : Int) ≤ e))
    let rec0 : WinRecord := ⟨fidx, (s, e), mset⟩
    let total' := total + mset.length
    if maxMatches ≠ 0 ∧ maxMatches ≤ total' then ([rec0], total', true)
    else
      let r := processWindows fidx hitIdxs maxMatches rest total'
      (rec0 :: r.1, r.2.1, r.2.2)

/-- Per-file body of the main loop (lines 75-107): find matches (regex
errors abort), skip the file when there are none, build the context
ranges, merge them unless `--no-merge`, then run the writer loop. -/
def processFile (compile : String → Bool → Option (String → Bool))
    (args : Args) (fidx : Nat) (lines : List String) (total : Int) :
    Except RunError (List WinRecord × Int × Bool) :=
  match find_matches compile lines args.pattern args.useRegex args.ignoreCase with
  | .regexErr => .error .regexError
  | .hits hitIdxs =>
    if hitIdxs.isEmpty then .ok ([], total, false)
    else
      let ranges0 := buildRanges lines.length args.context hitIdxs
      let ranges1 := if args.noMerge then ranges0 else merge_ranges ranges0
      .ok (processWindows fidx hitIdxs args.maxMatches ranges1 total)

/-- Iteration of `main` over the enumerated files (lines 70-107), threading
the running total and collecting the trace. -/
def runFiles (compile : String → Bool → Option (String → Bool)) (args : Args) :
    List FileModel → Nat → Int → RunResult
  | [], _, _ => ⟨[], [], false, none⟩
  | f :: fs, fidx, total =>
    match read_text_lines f with
    | .raised => ⟨[fidx], [], false, some .readError⟩
    | .skipped =>
      let r := runFiles compile args fs (fidx + 1) total
      ⟨fidx :: r.filesRead, r.records, r.stopped, r.outcome⟩
    | .lines ls =>
      match processFile compile args fidx ls total with
      | .error err => ⟨[fidx], [], false, some err⟩
      | .ok (ws, total', stop) =>
        if stop then ⟨[fidx], ws, true, none⟩
        else
          let r := runFiles compile args fs (fidx + 1) total'
          ⟨fidx :: r.filesRead, ws ++ r.records, r.stopped, r.outcome⟩

/-- Whole run of `main` over an enumerated file list. -/
def runMain (compile : String → Bool → Option (String → Bool)) (args : Args)
    (files : List FileModel) : RunResult :=
  runFiles compile args files 0 0

/-- Number of matched positions written in a list of blocks: the sum the
script accumulates in `total_matches`. -/
def msum (ws : List WinRecord) : Nat := (ws.map (fun r => r.matchSet.length)).sum

end FileSearch

namespace FileSearch

/-! ### Helper lemmas: substring containment -/

theorem headMatch_iff (n : List Char) : ∀ h : List Char,
    headMatch n h = true ↔ ∃ t, h = n ++ t := by
  induction n with
  | nil => intro h; simp [headMatch]
  | cons a as ih =>
    intro h
    cases h with
    | nil => simp [headMatch]
    | cons b bs =>
      simp only [headMatch, Bool.and_eq_true, beq_iff_eq, ih, List.cons_append,
        List.cons.injEq]
      constructor
      · rintro ⟨rfl, t, rfl⟩; exact ⟨t, rfl, rfl⟩
      · rintro ⟨t, rfl, rfl⟩; exact ⟨rfl, t, rfl⟩

theorem containsSub_iff (n : List Char) : ∀ h : List Char,
    containsSub n h = true ↔ ∃ pre post, h = pre ++ n ++ post := by
  intro h
  induction h with
  | nil =>
    simp only [containsSub, headMatch_iff]
    constructor
    · rintro ⟨t, ht⟩
      exact ⟨[], t, by simpa using ht⟩
    · rintro ⟨pre, post, hp⟩
      have h1 : pre ++ n ++ post = [] := hp.symm
      rcases List.append_eq_nil.mp h1 with ⟨h2, h3⟩
      rcases List.append_eq_nil.mp h2 with ⟨-, h4⟩
      exact ⟨[], by simp [h4, h3]⟩
  | cons b bs ih =>
    simp only [containsSub, Bool.or_eq_true, headMatch_iff, ih]
    constructor
    · rintro (⟨t, ht⟩ | ⟨pre, post, hp⟩)
      · exact ⟨[], t, by simpa using ht⟩
      · exact ⟨b :: pre, post, by simp [hp]⟩
    · rintro ⟨pre, post, hp⟩
      cases pre with
      | nil => exact Or.inl ⟨post, by simpa using hp⟩
      | cons c cs =>
        simp only [List.cons_append, List.cons.injEq] at hp
        exact Or.inr ⟨cs, post, hp.2⟩

/-! ### Helper lemmas: enumerate-and-filter -/

theorem mem_filterIdx {α : Type} (l : List α) (f : Nat × α → Bool) (i : Nat) :
    i ∈ (l.enum.filter f).map Prod.fst ↔ ∃ x, l[i]? = some x ∧ f (i, x) = true := by
  simp only [List.mem_map, List.mem_filter]
  constructor
  · rintro ⟨⟨j, x⟩, ⟨hmem, hf⟩, rfl⟩
    exact ⟨x, List.mk_mem_enum_iff_getElem?.mp hmem, hf⟩
  · rintro ⟨x, hx, hf⟩
    exact ⟨(i, x), ⟨List.mk_mem_enum_iff_getElem?.mpr hx, hf⟩, rfl⟩

theorem filterIdx_pairwise {α : Type} (l : List α) (f : Nat × α → Bool) :
    ((l.enum.filter f).map Prod.fst).Pairwise (· < ·) := by
  have hsub : List.Sublist ((l.enum.filter f).map Prod.fst) (l.enum.map Prod.fst) :=
    (List.filter_sublist _).map _
  rw [List.enum_map_fst] at hsub
  exact (List.pairwise_lt_range _).sublist hsub

theorem filterIdx_lt_length {α : Type} (l : List α) (f : Nat × α → Bool) (i : Nat)
    (h : i ∈ (l.enum.filter f).map Prod.fst) : i < l.length := by
  obtain ⟨x, hx, -⟩ := (mem_filterIdx l f i).mp h
  exact (List.getElem?_eq_some.mp hx).1

end FileSearch

namespace FileSearch

theorem find_matches_literal_eq (compile : String → Bool → Option (String → Bool))
    (lines : List String) (pattern : String) (ic : Bool) :
    find_matches compile lines pattern false ic =
      .hits ((lines.enum.filter (fun p => literalHit pattern p.2 ic)).map Prod.fst) := rfl

theorem find_matches_regex_eq (compile : String → Bool → Option (String → Bool))
    (lines : List String) (pattern : String) (ic : Bool) (rx : String → Bool)
    (h : compile pattern ic = some rx) :
    find_matches compile lines pattern true ic =
      .hits ((lines.enum.filter (fun p => rx p.2)).map Prod.fst) := by
  simp [find_matches, h]

theorem find_matches_regex_none (compile : String → Bool → Option (String → Bool))
    (lines : List String) (pattern : String) (ic : Bool)
    (h : compile pattern ic = none) :
    find_matches compile lines pattern true ic = .regexErr := by
  simp [find_matches, h]

theorem containsSub_nil (h : List Char) : containsSub [] h = true := by
  cases h <;> simp [containsSub, headMatch]

/-- C5: for every file with at least one line, every match index `idx` and
every configured context size `c ≥ 0`, the context window built by `main`
is `[max 0 (idx - c), min (numLines - 1) (idx + c)]`; its start is at most
its end, both bounds lie within `[0, numLines - 1]`, and a match on the
first line produces a window starting at 0, never negative. -/
theorem claim_C5_context_window (numLines idx : Nat) (c : Int)
    (hn : 1 ≤ numLines) (hidx : idx < numLines) (hc : 0 ≤ c) :
    contextWindow numLines c idx =
      (max 0 ((idx : Int) - c), min ((numLines : Int) - 1) ((idx : Int) + c)) ∧
    (contextWindow numLines c idx).1 ≤ (contextWindow numLines c idx).2 ∧
    0 ≤ (contextWindow numLines c idx).1 ∧
    (contextWindow numLines c idx).2 ≤ (numLines : Int) - 1 ∧
    (idx = 0 → (contextWindow numLines c idx).1 = 0) := by
  refine ⟨rfl, ?_, ?_, ?_, ?_⟩ <;> simp only [contextWindow] <;> intros <;> omega

/-- Witness for C5 at a file of 3 lines, a match on line 0 and context 5:
the hypotheses hold and the window starts at 0. -/
theorem claim_C5_context_window_witness :
    (1 ≤ 3 ∧ 0 < 3 ∧ (0 : Int) ≤ 5) ∧
    (contextWindow 3 5 0 =
      (max 0 (((0 : Nat) : Int) - 5), min (((3 : Nat) : Int) - 1) (((0 : Nat) : Int) + 5)) ∧
     (contextWindow 3 5 0).1 ≤ (contextWindow 3 5 0).2 ∧
     0 ≤ (contextWindow 3 5 0).1 ∧
     (contextWindow 3 5 0).2 ≤ ((3 : Nat) : Int) - 1 ∧
     ((0 : Nat) = 0 → (contextWindow 3 5 0).1 = 0)) :=
  ⟨⟨by decide, by decide, by decide⟩,
   claim_C5_context_window 3 0 5 (by decide) (by decide) (by decide)⟩

/-- C7: in literal mode a line matches exactly when it contains the pattern
as a substring, with both sides lowercased first when case-insensitivity is
requested; in particular pattern "abc" matches line "ABC" with ignore-case
on and does not match with ignore-case off. -/
theorem claim_C7_literal_matching :
    (∀ (compile : String → Bool → Option (String → Bool)) (lines : List String)
        (pattern : String) (ic : Bool) (L : List Nat),
        find_matches compile lines pattern false ic = .hits L →
        ∀ i : Nat, i ∈ L ↔ ∃ line, lines[i]? = some line ∧
          ∃ pre post : List Char,
            (if ic then lowerStr line else line).data =
              pre ++ (if ic then lowerStr pattern else pattern).data ++ post) ∧
    (∀ compile : String → Bool → Option (String → Bool),
        find_matches compile ["ABC"] "abc" false true = .hits [0]) ∧
    (∀ compile : String → Bool → Option (String → Bool),
        find_matches compile ["ABC"] "abc" false false = .hits []) := by
  refine ⟨?_, fun compile => by rfl, fun compile => by rfl⟩
  intro compile lines pattern ic L hL i
  rw [find_matches_literal_eq] at hL
  have hL' : (lines.enum.filter (fun p => literalHit pattern p.2 ic)).map Prod.fst = L :=
    by injection hL
  subst hL'
  rw [mem_filterIdx]
  refine exists_congr fun x => and_congr_right fun _ => ?_
  simp only [literalHit]
  exact containsSub_iff _ _

/-- C9: in literal mode with the empty pattern, every line of the file
matches: `find_matches` yields every index from 0 to `lines.length - 1`. -/
theorem claim_C9_empty_pattern (compile : String → Bool → Option (String → Bool))
    (lines : List String) (ic : Bool) :
    find_matches compile lines "" false ic = .hits (List.range lines.length) := by
  have h1 : ∀ line : String, literalHit "" line ic = true := by
    intro line
    have hn : (if ic then lowerStr "" else "").data = [] := by
      cases ic <;> rfl
    simp only [literalHit, hn, containsSub_nil]
  rw [find_matches_literal_eq]
  congr 1
  rw [List.filter_eq_self.mpr (fun a _ => h1 a.2), List.enum_map_fst]

end FileSearch

namespace FileSearch

/-! ### Helper lemmas: decoder and run loop -/

theorem read_text_lines_raised_iff (f : FileModel) :
    read_text_lines f = .raised ↔ f.strictRead = .otherError := by
  rcases f with ⟨s, l⟩
  cases s <;> cases l <;> simp [read_text_lines]

theorem processFile_error_eq (compile : String → Bool → Option (String → Bool))
    (args : Args) (fidx : Nat) (lines : List String) (total : Int) (err : RunError)
    (h : processFile compile args fidx lines total = .error err) :
    err = .regexError := by
  unfold processFile at h
  cases hm : find_matches compile lines args.pattern args.useRegex args.ignoreCase with
  | regexErr => rw [hm] at h; injection h with h; exact h.symm
  | hits hitIdxs =>
    rw [hm] at h
    by_cases he : hitIdxs.isEmpty <;> simp [he] at h

theorem runFiles_no_readError (compile : String → Bool → Option (String → Bool))
    (args : Args) :
    ∀ (files : List FileModel) (fidx : Nat) (total : Int),
      (∀ f ∈ files, f.strictRead ≠ .otherError) →
      (runFiles compile args files fidx total).outcome ≠ some .readError := by
  intro files
  induction files with
  | nil => intro fidx total h; simp [runFiles]
  | cons f fs ih =>
    intro fidx total h
    cases hr : read_text_lines f with
    | raised =>
      exact absurd ((read_text_lines_raised_iff f).mp hr) (h f (List.mem_cons_self f fs))
    | skipped =>
      simp only [runFiles, hr]
      exact ih (fidx + 1) total (fun g hg => h g (List.mem_cons_of_mem f hg))
    | lines ls =>
      simp only [runFiles, hr]
      cases hp : processFile compile args fidx ls total with
      | error err =>
        have := processFile_error_eq compile args fidx ls total err hp
        subst this
        simp
      | ok res =>
        obtain ⟨ws, total', stop⟩ := res
        cases stop with
        | true => simp
        | false =>
          simp only [Bool.false_eq_true, if_false]
          exact ih (fidx + 1) total' (fun g hg => h g (List.mem_cons_of_mem f hg))

/-- C4 (amended): an exception on the strict read other than a decode
failure propagates out of `read_text_lines` and aborts the run; but when
no file's strict read raises such an exception, no read exception escapes:
a decode failure is retried with the lossy fallback, whose result is
returned, and if the lossy retry itself fails the file is silently skipped
(yields `None`). -/
theorem claim_C4_amended_decoder (compile : String → Bool → Option (String → Bool))
    (args : Args) (files : List FileModel)
    (h : ∀ f ∈ files, f.strictRead ≠ .otherError) :
    (∀ f ∈ files, read_text_lines f ≠ .raised) ∧
    (runMain compile args files).outcome ≠ some .readError ∧
    (∀ f : FileModel, f.strictRead = .unicodeError → ∀ ls, f.lossyRead = .ok ls →
      read_text_lines f = .lines ls) ∧
    (∀ f : FileModel, f.strictRead = .unicodeError → (∀ ls, f.lossyRead ≠ .ok ls) →
      read_text_lines f = .skipped) := by
  refine ⟨?_, runFiles_no_readError compile args files 0 0 h, ?_, ?_⟩
  · intro f hf hraised
    exact h f hf ((read_text_lines_raised_iff f).mp hraised)
  · intro f hs ls hl
    simp [read_text_lines, hs, hl]
  · intro f hs hl
    rcases f with ⟨s, l⟩
    cases hs
    cases l with
    | ok ls => exact absurd rfl (hl ls)
    | unicodeError => simp [read_text_lines]
    | otherError => simp [read_text_lines]

/-- Witness for C4 (amended) on one file whose strict read hits a decode
error and whose lossy retry succeeds. -/
theorem claim_C4_amended_decoder_witness :
    (∀ f ∈ [(⟨.unicodeError, .ok ["a"]⟩ : FileModel)], f.strictRead ≠ .otherError) ∧
    ((∀ f ∈ [(⟨.unicodeError, .ok ["a"]⟩ : FileModel)], read_text_lines f ≠ .raised) ∧
     (runMain (fun _ _ => none) ⟨"a", 0, false, false, false, 0⟩
        [⟨.unicodeError, .ok ["a"]⟩]).outcome ≠ some .readError ∧
     (∀ f : FileModel, f.strictRead = .unicodeError → ∀ ls, f.lossyRead = .ok ls →
       read_text_lines f = .lines ls) ∧
     (∀ f : FileModel, f.strictRead = .unicodeError → (∀ ls, f.lossyRead ≠ .ok ls) →
       read_text_lines f = .skipped)) :=
  ⟨by decide,
   claim_C4_amended_decoder (fun _ _ => none) ⟨"a", 0, false, false, false, 0⟩
     [⟨.unicodeError, .ok ["a"]⟩] (by decide)⟩

/-- Counterexample to C4 as stated: a non-decode failure (e.g. an I/O
error) on the strict read of the first file is not caught, so the
exception propagates and the run aborts; the second file, which contains a
match, is never processed and nothing is written. -/
theorem claim_C4_counterexample :
    read_text_lines ⟨.otherError, .ok []⟩ = .raised ∧
    (runMain (fun _ _ => none) ⟨"b", 0, false, false, false, 0⟩
        [⟨.otherError, .ok []⟩, ⟨.ok ["b"], .ok []⟩]).outcome = some .readError ∧
    (runMain (fun _ _ => none) ⟨"b", 0, false, false, false, 0⟩
        [⟨.otherError, .ok []⟩, ⟨.ok ["b"], .ok []⟩]).records = [] := by
  exact ⟨rfl, rfl, rfl⟩

end FileSearch

namespace FileSearch

theorem runFiles_invalid_regex (compile : String → Bool → Option (String → Bool))
    (args : Args) (hur : args.useRegex = true)
    (hc : compile args.pattern args.ignoreCase = none) :
    ∀ (files : List FileModel) (fidx : Nat) (total : Int),
      (runFiles compile args files fidx total).records = [] ∧
      (runFiles compile args files fidx total).stopped = false ∧
      ((runFiles compile args files fidx total).outcome = none ↔
        ∀ f ∈ files, read_text_lines f = .skipped) := by
  intro files
  induction files with
  | nil => intro fidx total; simp [runFiles]
  | cons f fs ih =>
    intro fidx total
    cases hr : read_text_lines f with
    | raised => simp [runFiles, hr]
    | skipped =>
      have := ih (fidx + 1) total
      simp only [runFiles, hr]
      simp [this.1, this.2.1, this.2.2, hr]
    | lines ls =>
      have hpf : processFile compile args fidx ls total = .error .regexError := by
        unfold processFile
        rw [hur, find_matches_regex_none compile ls args.pattern args.ignoreCase hc]
      simp [runFiles, hr, hpf]

/-- C2 (amended): with `--regex` and a pattern on which regex compilation
fails, no report content is ever written (no window block, no
stopped-early notice), but the failure is raised per file, inside
`find_matches`, not before processing begins: the run completes without
error exactly when no file yields lines, and otherwise it aborts with the
regex error only at the first file whose read produces lines — after that
file has been read. -/
theorem claim_C2_amended_invalid_regex (compile : String → Bool → Option (String → Bool))
    (args : Args) (files : List FileModel) (hur : args.useRegex = true)
    (hc : compile args.pattern args.ignoreCase = none) :
    (runMain compile args files).records = [] ∧
    (runMain compile args files).stopped = false ∧
    ((runMain compile args files).outcome = none ↔
      ∀ f ∈ files, read_text_lines f = .skipped) :=
  runFiles_invalid_regex compile args hur hc files 0 0

/-- Witness for C2 (amended) at a one-file run with an always-failing
regex compilation. -/
theorem claim_C2_amended_invalid_regex_witness :
    ((⟨"(", 5, true, false, false, 0⟩ : Args).useRegex = true ∧
     (fun (_ : String) (_ : Bool) => (none : Option (String → Bool)))
       (⟨"(", 5, true, false, false, 0⟩ : Args).pattern
       (⟨"(", 5, true, false, false, 0⟩ : Args).ignoreCase = none) ∧
    ((runMain (fun _ _ => none) ⟨"(", 5, true, false, false, 0⟩
        [⟨.ok ["hello"], .ok []⟩]).records = [] ∧
     (runMain (fun _ _ => none) ⟨"(", 5, true, false, false, 0⟩
        [⟨.ok ["hello"], .ok []⟩]).stopped = false ∧
     ((runMain (fun _ _ => none) ⟨"(", 5, true, false, false, 0⟩
        [⟨.ok ["hello"], .ok []⟩]).outcome = none ↔
       ∀ f ∈ [(⟨.ok ["hello"], .ok []⟩ : FileModel)], read_text_lines f = .skipped)) :=
  ⟨⟨rfl, rfl⟩,
   claim_C2_amended_invalid_regex (fun _ _ => none) ⟨"(", 5, true, false, false, 0⟩
     [⟨.ok ["hello"], .ok []⟩] rfl rfl⟩

/-- Counterexample to C2 as stated: with `--regex` and an invalid pattern,
the run does read a file before aborting — the regex is compiled per file
inside `find_matches`, so on a run over one readable file the file list
shows a read before the regex error surfaces, contradicting "no file is
read". -/
theorem claim_C2_counterexample :
    (runMain (fun _ _ => none) ⟨"(", 5, true, false, false, 0⟩
        [⟨.ok ["hello"], .ok []⟩]).filesRead = [0] ∧
    (runMain (fun _ _ => none) ⟨"(", 5, true, false, false, 0⟩
        [⟨.ok ["hello"], .ok []⟩]).filesRead ≠ [] ∧
    (runMain (fun _ _ => none) ⟨"(", 5, true, false, false, 0⟩
        [⟨.ok ["hello"], .ok []⟩]).outcome = some .regexError := by
  refine ⟨rfl, ?_, rfl⟩
  decide

end FileSearch

namespace FileSearch

/-! ### Helper lemmas: writer loop -/

theorem processWindows_record_win_mem (fidx : Nat) (hits : List Nat) (maxM : Int) :
    ∀ (ranges : List (Int × Int)) (total : Int) (r : WinRecord),
      r ∈ (processWindows fidx hits maxM ranges total).1 → r.win ∈ ranges := by
  intro ranges
  induction ranges with
  | nil => intro total r h; simp [processWindows] at h
  | cons w rest ih =>
    intro total r h
    obtain ⟨s, e⟩ := w
    simp only [processWindows] at h
    split at h
    · simp only [List.mem_singleton] at h
      subst h
      exact List.mem_cons_self _ _
    · rcases List.mem_cons.mp h with rfl | hmem
      · exact List.mem_cons_self _ _
      · exact List.mem_cons_of_mem _ (ih _ r hmem)

theorem processWindows_wins_pairwise (fidx : Nat) (hits : List Nat) (maxM : Int) :
    ∀ (ranges : List (Int × Int)) (total : Int),
      ranges.Pairwise (fun a b => a.1 ≤ b.1) →
      ((processWindows fidx hits maxM ranges total).1.map (fun r => r.win)).Pairwise
        (fun a b => a.1 ≤ b.1) := by
  intro ranges
  induction ranges with
  | nil => intro total hp; simp [processWindows]
  | cons w rest ih =>
    intro total hp
    obtain ⟨s, e⟩ := w
    rcases List.pairwise_cons.mp hp with ⟨hhead, htail⟩
    simp only [processWindows]
    split
    · simp
    · rw [List.map_cons]
      refine List.pairwise_cons.mpr ⟨?_, ih _ htail⟩
      intro v hv
      rcases List.mem_map.mp hv with ⟨rc, hrc, rfl⟩
      exact hhead rc.win (processWindows_record_win_mem fidx hits maxM rest _ rc hrc)

theorem buildRanges_pairwise (n : Nat) (c : Int) (L : List Nat)
    (h : L.Pairwise (· < ·)) :
    (buildRanges n c L).Pairwise (fun a b => a.1 ≤ b.1) := by
  unfold buildRanges
  refine List.Pairwise.map _ ?_ h
  intro a b hab
  simp only [contextWindow]
  omega

theorem find_matches_hits_pairwise (compile : String → Bool → Option (String → Bool))
    (lines : List String) (pattern : String) (ur ic : Bool) (L : List Nat)
    (h : find_matches compile lines pattern ur ic = .hits L) : L.Pairwise (· < ·) := by
  cases ur with
  | false =>
    rw [find_matches_literal_eq] at h
    have hL : (lines.enum.filter (fun p => literalHit pattern p.2 ic)).map Prod.fst = L :=
      by injection h
    rw [← hL]
    exact filterIdx_pairwise lines _
  | true =>
    cases hcp : compile pattern ic with
    | none => rw [find_matches_regex_none compile lines pattern ic hcp] at h; cases h
    | some rx =>
      rw [find_matches_regex_eq compile lines pattern ic rx hcp] at h
      have hL : (lines.enum.filter (fun p => rx p.2)).map Prod.fst = L := by injection h
      rw [← hL]
      exact filterIdx_pairwise lines _

/-- C10: `find_matches` yields match indices in strictly increasing order
(in both literal and regex mode); consequently the per-match context
windows are built in nondecreasing order of start, and with merging
disabled the writer emits one file's windows in that same
nondecreasing-start order. -/
theorem claim_C10_emission_order :
    (∀ (compile : String → Bool → Option (String → Bool)) (lines : List String)
        (pattern : String) (ur ic : Bool) (L : List Nat),
        find_matches compile lines pattern ur ic = .hits L →
        L.Pairwise (· < ·)) ∧
    (∀ (compile : String → Bool → Option (String → Bool)) (lines : List String)
        (pattern : String) (ur ic : Bool) (c : Int) (L : List Nat),
        find_matches compile lines pattern ur ic = .hits L →
        (buildRanges lines.length c L).Pairwise (fun a b => a.1 ≤ b.1)) ∧
    (∀ (compile : String → Bool → Option (String → Bool)) (args : Args)
        (fidx : Nat) (lines : List String) (total : Int)
        (ws : List WinRecord) (t : Int) (b : Bool),
        args.noMerge = true →
        processFile compile args fidx lines total = .ok (ws, t, b) →
        (ws.map (fun r => r.win)).Pairwise (fun a b => a.1 ≤ b.1)) := by
  refine ⟨find_matches_hits_pairwise, ?_, ?_⟩
  · intro compile lines pattern ur ic c L h
    exact buildRanges_pairwise lines.length c L
      (find_matches_hits_pairwise compile lines pattern ur ic L h)
  · intro compile args fidx lines total ws t b hnm hpf
    unfold processFile at hpf
    cases hm : find_matches compile lines args.pattern args.useRegex args.ignoreCase with
    | regexErr => rw [hm] at hpf; cases hpf
    | hits hitIdxs =>
      rw [hm] at hpf
      dsimp only at hpf
      by_cases he : hitIdxs.isEmpty
      · rw [if_pos he] at hpf
        injection hpf with hpf
        have hws : ws = ([] : List WinRecord) := by
          have := congrArg Prod.fst hpf
          simpa using this
        subst hws
        simp
      · rw [if_neg he, hnm, if_pos rfl] at hpf
        injection hpf with hpf
        have hws : ws = (processWindows fidx hitIdxs args.maxMatches
            (buildRanges lines.length args.context hitIdxs) total).1 := by
          have := congrArg Prod.fst hpf
          simpa using this.symm
        subst hws
        exact processWindows_wins_pairwise fidx hitIdxs args.maxMatches _ total
          (buildRanges_pairwise lines.length args.context hitIdxs
            (find_matches_hits_pairwise compile lines args.pattern args.useRegex
              args.ignoreCase hitIdxs hm))

end FileSearch

namespace FileSearch

/-- Witness for C10 on a three-line file with matches on lines 0 and 2,
context 1 and merging disabled. -/
theorem claim_C10_emission_order_witness :
    (find_matches (fun _ _ => none) ["x", "y", "x"] "x" false false = .hits [0, 2] ∧
     List.Pairwise (· < ·) [0, 2]) ∧
    List.Pairwise (fun (a b : Int × Int) => a.1 ≤ b.1) (buildRanges 3 1 [0, 2]) ∧
    ((⟨"x", 1, false, false, true, 0⟩ : Args).noMerge = true ∧
     processFile (fun _ _ => none) ⟨"x", 1, false, false, true, 0⟩ 0 ["x", "y", "x"] 0 =
       .ok ([⟨0, (0, 1), [0]⟩, ⟨0, (1, 2), [2]⟩], 2, false) ∧
     List.Pairwise (fun (a b : Int × Int) => a.1 ≤ b.1)
       (([⟨0, (0, 1), [0]⟩, ⟨0, (1, 2), [2]⟩] : List WinRecord).map (fun r => r.win))) := by
  refine ⟨⟨by rfl, ?_⟩, ?_, rfl, by rfl, ?_⟩
  · exact claim_C10_emission_order.1 (fun _ _ => none) ["x", "y", "x"] "x" false false
      [0, 2] (by rfl)
  · exact claim_C10_emission_order.2.1 (fun _ _ => none) ["x", "y", "x"] "x" false false
      1 [0, 2] (by rfl)
  · exact claim_C10_emission_order.2.2 (fun _ _ => none) ⟨"x", 1, false, false, true, 0⟩
      0 ["x", "y", "x"] 0 [⟨0, (0, 1), [0]⟩, ⟨0, (1, 2), [2]⟩] 2 false rfl (by rfl)

end FileSearch

namespace FileSearch

theorem msum_nil : msum [] = 0 := rfl

theorem msum_cons (r : WinRecord) (l : List WinRecord) :
    msum (r :: l) = r.matchSet.length + msum l := by
  simp [msum]

theorem msum_append (a b : List WinRecord) : msum (a ++ b) = msum a + msum b := by
  simp [msum]

theorem processWindows_cap (fidx : Nat) (hits : List Nat) (maxM : Int) (hm : 0 < maxM) :
    ∀ (ranges : List (Int × Int)) (total : Int), total < maxM →
      (processWindows fidx hits maxM ranges total).2.1 =
          total + (msum (processWindows fidx hits maxM ranges total).1 : Int) ∧
      (∀ j < (processWindows fidx hits maxM ranges total).1.length,
          total + (msum ((processWindows fidx hits maxM ranges total).1.take j) : Int) < maxM) ∧
      ((processWindows fidx hits maxM ranges total).2.2 = true →
          maxM ≤ (processWindows fidx hits maxM ranges total).2.1) ∧
      ((processWindows fidx hits maxM ranges total).2.2 = false →
          (processWindows fidx hits maxM ranges total).2.1 < maxM) := by
  intro ranges
  induction ranges with
  | nil =>
    intro total ht
    refine ⟨by simp [processWindows, msum], ?_, by simp [processWindows], ?_⟩
    · intro j hj; simp [processWindows] at hj
    · intro _; simpa [processWindows] using ht
  | cons w rest ih =>
    intro total ht
    obtain ⟨s, e⟩ := w
    simp only [processWindows]
    by_cases hg : maxM ≠ 0 ∧ maxM ≤ total +
        (hits.filter (fun (i : Nat) => decide (s ≤ (i : Int)) && decide ((i : Int) ≤ e))).length
    · rw [if_pos hg]
      refine ⟨by simp [msum], ?_, fun _ => hg.2, fun hfalse => by cases hfalse⟩
      intro j hj
      simp only [List.length_singleton] at hj
      interval_cases j
      simpa [msum] using ht
    · rw [if_neg hg]
      have hne : maxM ≠ 0 := by omega
      have hlt : total + ((hits.filter
          (fun (i : Nat) => decide (s ≤ (i : Int)) && decide ((i : Int) ≤ e))).length : Int)
          < maxM := by
        rcases not_and_or.mp hg with h | h
        · exact absurd hne h
        · omega
      obtain ⟨ha, hb, hc, hd⟩ := ih (total +
        (hits.filter (fun (i : Nat) => decide (s ≤ (i : Int)) && decide ((i : Int) ≤ e))).length)
        hlt
      refine ⟨?_, ?_, hc, hd⟩
      · rw [ha, msum_cons]
        push_cast
        ring
      · intro j hj
        cases j with
        | zero => simpa [msum] using ht
        | succ jj =>
          simp only [List.length_cons] at hj
          rw [List.take_succ_cons, msum_cons]
          have := hb jj (by omega)
          push_cast at this ⊢
          omega

theorem processFile_ok_cases (compile : String → Bool → Option (String → Bool))
    (args : Args) (fidx : Nat) (lines : List String) (total : Int)
    (ws : List WinRecord) (total' : Int) (stop : Bool)
    (h : processFile compile args fidx lines total = .ok (ws, total', stop)) :
    (ws = [] ∧ total' = total ∧ stop = false) ∨
    ∃ hitIdxs : List Nat,
      find_matches compile lines args.pattern args.useRegex args.ignoreCase = .hits hitIdxs ∧
      hitIdxs.isEmpty = false ∧
      ws = (processWindows fidx hitIdxs args.maxMatches
        (if args.noMerge then buildRanges lines.length args.context hitIdxs
         else merge_ranges (buildRanges lines.length args.context hitIdxs)) total).1 ∧
      total' = (processWindows fidx hitIdxs args.maxMatches
        (if args.noMerge then buildRanges lines.length args.context hitIdxs
         else merge_ranges (buildRanges lines.length args.context hitIdxs)) total).2.1 ∧
      stop = (processWindows fidx hitIdxs args.maxMatches
        (if args.noMerge then buildRanges lines.length args.context hitIdxs
         else merge_ranges (buildRanges lines.length args.context hitIdxs)) total).2.2 := by
  unfold processFile at h
  cases hm : find_matches compile lines args.pattern args.useRegex args.ignoreCase with
  | regexErr => rw [hm] at h; cases h
  | hits hitIdxs =>
    rw [hm] at h
    dsimp only at h
    by_cases he : hitIdxs.isEmpty
    · rw [if_pos he] at h
      injection h with h
      left
      refine ⟨(congrArg Prod.fst h).symm, ?_, ?_⟩
      · have := congrArg (fun p => p.2.1) h; exact this.symm
      · have := congrArg (fun p => p.2.2) h; exact this.symm
    · rw [if_neg he] at h
      injection h with h
      right
      refine ⟨hitIdxs, rfl, Bool.of_not_eq_true he, ?_, ?_, ?_⟩
      · exact (congrArg Prod.fst h).symm
      · have := congrArg (fun p => p.2.1) h; exact this.symm
      · have := congrArg (fun p => p.2.2) h; exact this.symm

end FileSearch

namespace FileSearch

theorem runFiles_cap (compile : String → Bool → Option (String → Bool)) (args : Args)
    (hm : 0 < args.maxMatches) :
    ∀ (files : List FileModel) (fidx : Nat) (total : Int), total < args.maxMatches →
      (∀ j < (runFiles compile args files fidx total).records.length,
        total + (msum ((runFiles compile args files fidx total).records.take j) : Int) <
          args.maxMatches) ∧
      ((runFiles compile args files fidx total).stopped = true →
        args.maxMatches ≤
          total + (msum (runFiles compile args files fidx total).records : Int)) := by
  intro files
  induction files with
  | nil =>
    intro fidx total ht
    constructor
    · intro j hj; simp [runFiles] at hj
    · intro hstop; simp [runFiles] at hstop
  | cons f fs ih =>
    intro fidx total ht
    cases hr : read_text_lines f with
    | raised =>
      simp only [runFiles, hr]
      exact ⟨fun j hj => by simp at hj, fun hstop => by cases hstop⟩
    | skipped =>
      simp only [runFiles, hr]
      exact ih (fidx + 1) total ht
    | lines ls =>
      simp only [runFiles, hr]
      cases hp : processFile compile args fidx ls total with
      | error err =>
        exact ⟨fun j hj => by simp at hj, fun hstop => by cases hstop⟩
      | ok res =>
        obtain ⟨ws, total', stop⟩ := res
        rcases processFile_ok_cases compile args fidx ls total ws total' stop hp with
          ⟨rfl, rfl, rfl⟩ | ⟨hitIdxs, hfm, hne, hws, htot, hstp⟩
        · simp only [Bool.false_eq_true, if_false, List.nil_append]
          exact ih (fidx + 1) _ ht
        · obtain ⟨ha, hb, hc, hd⟩ := processWindows_cap fidx hitIdxs args.maxMatches hm
            (if args.noMerge then buildRanges ls.length args.context hitIdxs
             else merge_ranges (buildRanges ls.length args.context hitIdxs)) total ht
          rw [← hws] at ha hb
          rw [← htot] at ha hc hd
          rw [← hstp] at hc hd
          cases stop with
          | true =>
            simp only [if_true]
            refine ⟨hb, fun _ => ?_⟩
            rw [← ha]
            exact hc rfl
          | false =>
            simp only [Bool.false_eq_true, if_false]
            have htot' : total' < args.maxMatches := hd rfl
            obtain ⟨ihb, ihc⟩ := ih (fidx + 1) total' htot'
            constructor
            · intro j hj
              simp only [List.length_append] at hj
              rw [List.take_append_eq_append_take, msum_append]
              by_cases hjws : j ≤ ws.length
              · have h0 : j - ws.length = 0 := by omega
                rw [h0, List.take_zero, msum_nil]
                rcases Nat.lt_or_ge j ws.length with hlt | hge
                · have := hb j hlt
                  push_cast at this ⊢
                  omega
                · have hjeq : j = ws.length := by omega
                  rw [hjeq, List.take_length]
                  push_cast at ha ⊢
                  omega
              · have hwsfull : List.take j ws = ws := List.take_of_length_le (by omega)
                rw [hwsfull]
                have hjr : j - ws.length <
                    (runFiles compile args fs (fidx + 1) total').records.length := by omega
                have := ihb (j - ws.length) hjr
                push_cast at this ha ⊢
                omega
            · intro hstop
              have := ihc hstop
              rw [msum_append]
              push_cast at this ha ⊢
              omega

/-- C3 (amended): with a positive `--max-matches` bound N, every proper
stage of the run (the blocks written before the last one) has a running
total strictly below N — the run terminates at the first window block that
brings the total to N or beyond, skipping the rest of that file and all
later files — and whenever the stopped-early notice is written the final
total is at least N.  The total may overshoot N when the crossing window
contains several matches, so "exactly N matches" holds only when each
match yields its own window block (e.g. non-adjacent matches), not in
general. -/
theorem claim_C3_amended_max_matches (compile : String → Bool → Option (String → Bool))
    (args : Args) (files : List FileModel) (hm : 0 < args.maxMatches) :
    (∀ j < (runMain compile args files).records.length,
      (msum ((runMain compile args files).records.take j) : Int) < args.maxMatches) ∧
    ((runMain compile args files).stopped = true →
      args.maxMatches ≤ (msum (runMain compile args files).records : Int)) := by
  have h := runFiles_cap compile args hm files 0 0 hm
  unfold runMain
  constructor
  · intro j hj
    have := h.1 j hj
    omega
  · intro hstop
    have := h.2 hstop
    omega

/-- Witness for C3 (amended): three files with two separated matches each
and `--max-matches=3`; here exactly 3 matches are written and the notice
appears. -/
theorem claim_C3_amended_max_matches_witness :
    (0 : Int) < 3 ∧
    ((∀ j < (runMain (fun _ _ => none) ⟨"x", 0, false, false, false, 3⟩
        [⟨.ok ["x", "", "", "x"], .ok []⟩, ⟨.ok ["x", "", "", "x"], .ok []⟩,
         ⟨.ok ["x", "", "", "x"], .ok []⟩]).records.length,
      (msum ((runMain (fun _ _ => none) ⟨"x", 0, false, false, false, 3⟩
        [⟨.ok ["x", "", "", "x"], .ok []⟩, ⟨.ok ["x", "", "", "x"], .ok []⟩,
         ⟨.ok ["x", "", "", "x"], .ok []⟩]).records.take j) : Int) < 3) ∧
     ((runMain (fun _ _ => none) ⟨"x", 0, false, false, false, 3⟩
        [⟨.ok ["x", "", "", "x"], .ok []⟩, ⟨.ok ["x", "", "", "x"], .ok []⟩,
         ⟨.ok ["x", "", "", "x"], .ok []⟩]).stopped = true →
      (3 : Int) ≤ (msum (runMain (fun _ _ => none) ⟨"x", 0, false, false, false, 3⟩
        [⟨.ok ["x", "", "", "x"], .ok []⟩, ⟨.ok ["x", "", "", "x"], .ok []⟩,
         ⟨.ok ["x", "", "", "x"], .ok []⟩]).records : Int))) ∧
    msum (runMain (fun _ _ => none) ⟨"x", 0, false, false, false, 3⟩
        [⟨.ok ["x", "", "", "x"], .ok []⟩, ⟨.ok ["x", "", "", "x"], .ok []⟩,
         ⟨.ok ["x", "", "", "x"], .ok []⟩]).records = 3 ∧
    (runMain (fun _ _ => none) ⟨"x", 0, false, false, false, 3⟩
        [⟨.ok ["x", "", "", "x"], .ok []⟩, ⟨.ok ["x", "", "", "x"], .ok []⟩,
         ⟨.ok ["x", "", "", "x"], .ok []⟩]).stopped = true :=
  ⟨by decide,
   claim_C3_amended_max_matches (fun _ _ => none) ⟨"x", 0, false, false, false, 3⟩
     [⟨.ok ["x", "", "", "x"], .ok []⟩, ⟨.ok ["x", "", "", "x"], .ok []⟩,
      ⟨.ok ["x", "", "", "x"], .ok []⟩] (by decide),
   by decide, by decide⟩

/-- Counterexample to C3 as stated: three matching files with two matches
each and `--max-matches=3`, where the two matches of a file fall into one
merged window block; the run writes 4 matches, not exactly 3, because the
cap is only checked after each whole window block. -/
theorem claim_C3_counterexample :
    msum (runMain (fun _ _ => none) ⟨"x", 0, false, false, false, 3⟩
        [⟨.ok ["x", "x"], .ok []⟩, ⟨.ok ["x", "x"], .ok []⟩,
         ⟨.ok ["x", "x"], .ok []⟩]).records = 4 ∧
    (runMain (fun _ _ => none) ⟨"x", 0, false, false, false, 3⟩
        [⟨.ok ["x", "x"], .ok []⟩, ⟨.ok ["x", "x"], .ok []⟩,
         ⟨.ok ["x", "x"], .ok []⟩]).stopped = true ∧
    (4 : Nat) ≠ 3 := by
  exact ⟨by decide, by decide, by decide⟩

end FileSearch

namespace FileSearch

/-! ### Helper lemmas: the sort underlying `merge_ranges` -/

theorem lexLe_iff (a b : Int × Int) :
    lexLe a b = true ↔ (a.1 < b.1 ∨ (a.1 = b.1 ∧ a.2 ≤ b.2)) := by
  simp [lexLe]

theorem lexLe_total (a b : Int × Int) : lexLe a b = true ∨ lexLe b a = true := by
  simp only [lexLe_iff]
  omega

theorem lexLe_trans {a b c : Int × Int} (h1 : lexLe a b = true) (h2 : lexLe b c = true) :
    lexLe a c = true := by
  rw [lexLe_iff] at h1 h2 ⊢
  omega

theorem mem_insertSorted (a x : Int × Int) :
    ∀ l : List (Int × Int), x ∈ insertSorted a l ↔ x = a ∨ x ∈ l := by
  intro l
  induction l with
  | nil => simp [insertSorted]
  | cons b bs ih =>
    simp only [insertSorted]
    split
    · simp
    · simp only [List.mem_cons, ih]
      tauto

theorem insertSorted_perm (a : Int × Int) :
    ∀ l : List (Int × Int), (insertSorted a l).Perm (a :: l) := by
  intro l
  induction l with
  | nil => simp [insertSorted]
  | cons b bs ih =>
    simp only [insertSorted]
    split
    · exact List.Perm.refl _
    · exact (List.Perm.cons b ih).trans (List.Perm.swap a b bs)

theorem sortRanges_perm : ∀ l : List (Int × Int), (sortRanges l).Perm l := by
  intro l
  induction l with
  | nil => simp [sortRanges]
  | cons a as ih =>
    exact (insertSorted_perm a (sortRanges as)).trans (List.Perm.cons a ih)

theorem insertSorted_sorted (a : Int × Int) :
    ∀ l : List (Int × Int), l.Pairwise (fun x y => lexLe x y = true) →
      (insertSorted a l).Pairwise (fun x y => lexLe x y = true) := by
  intro l
  induction l with
  | nil => intro _; simp [insertSorted]
  | cons b bs ih =>
    intro hp
    rcases List.pairwise_cons.mp hp with ⟨hb, hbs⟩
    simp only [insertSorted]
    split
    · rename_i hab
      refine List.pairwise_cons.mpr ⟨?_, hp⟩
      intro x hx
      rcases List.mem_cons.mp hx with rfl | hx
      · exact hab
      · exact lexLe_trans hab (hb x hx)
    · rename_i hab
      have hba : lexLe b a = true := by
        rcases lexLe_total a b with h | h
        · exact absurd h hab
        · exact h
      refine List.pairwise_cons.mpr ⟨?_, ih hbs⟩
      intro x hx
      rcases (mem_insertSorted a x bs).mp hx with rfl | hx
      · exact hba
      · exact hb x hx

theorem sortRanges_sorted :
    ∀ l : List (Int × Int), (sortRanges l).Pairwise (fun x y => lexLe x y = true) := by
  intro l
  induction l with
  | nil => simp [sortRanges]
  | cons a as ih => exact insertSorted_sorted a (sortRanges as) ih

theorem sortRanges_eq_of_sorted :
    ∀ l : List (Int × Int), l.Pairwise (fun x y => lexLe x y = true) → sortRanges l = l := by
  intro l
  induction l with
  | nil => intro _; rfl
  | cons a as ih =>
    intro hp
    rcases List.pairwise_cons.mp hp with ⟨ha, has⟩
    have hrec : sortRanges as = as := ih has
    simp only [sortRanges, hrec]
    cases as with
    | nil => rfl
    | cons b bs =>
      simp only [insertSorted]
      rw [if_pos (ha b (List.mem_cons_self b bs))]

end FileSearch

namespace FileSearch

/-! ### Helper lemmas: the merge fold -/

theorem mergeLoop_head (cur : Int × Int) :
    ∀ l : List (Int × Int), ∃ q tl, mergeLoop cur l = (cur.1, q) :: tl ∧ cur.2 ≤ q := by
  intro l
  induction l generalizing cur with
  | nil => exact ⟨cur.2, [], rfl, le_refl _⟩
  | cons w rest ih =>
    obtain ⟨s, e⟩ := w
    simp only [mergeLoop]
    split
    · obtain ⟨q, tl, heq, hle⟩ := ih (cur.1, max cur.2 e)
      exact ⟨q, tl, heq, le_trans (le_max_left _ _) hle⟩
    · exact ⟨cur.2, mergeLoop (s, e) rest, rfl, le_refl _⟩

theorem mergeLoop_origin (cur : Int × Int) :
    ∀ (l : List (Int × Int)) (w : Int × Int), w ∈ mergeLoop cur l →
      (w.1 = cur.1 ∧ cur.2 ≤ w.2) ∨ ∃ r ∈ l, w.1 = r.1 ∧ r.2 ≤ w.2 := by
  intro l
  induction l generalizing cur with
  | nil =>
    intro w hw
    simp only [mergeLoop, List.mem_singleton] at hw
    subst hw
    exact Or.inl ⟨rfl, le_refl _⟩
  | cons v rest ih =>
    intro w hw
    obtain ⟨s, e⟩ := v
    simp only [mergeLoop] at hw
    split at hw
    · rcases ih (cur.1, max cur.2 e) w hw with ⟨h1, h2⟩ | ⟨r, hr, h1, h2⟩
      · exact Or.inl ⟨h1, le_trans (le_max_left _ _) h2⟩
      · exact Or.inr ⟨r, List.mem_cons_of_mem _ hr, h1, h2⟩
    · rcases List.mem_cons.mp hw with rfl | hw
      · exact Or.inl ⟨rfl, le_refl _⟩
      · rcases ih (s, e) w hw with ⟨h1, h2⟩ | ⟨r, hr, h1, h2⟩
        · exact Or.inr ⟨(s, e), List.mem_cons_self _ _, h1, h2⟩
        · exact Or.inr ⟨r, List.mem_cons_of_mem _ hr, h1, h2⟩

theorem mergeLoop_chain_gap (cur : Int × Int) :
    ∀ l : List (Int × Int),
      (mergeLoop cur l).Chain' (fun a b => a.2 + 1 < b.1) := by
  intro l
  induction l generalizing cur with
  | nil => simp [mergeLoop]
  | cons v rest ih =>
    obtain ⟨s, e⟩ := v
    simp only [mergeLoop]
    split
    · exact ih (cur.1, max cur.2 e)
    · rename_i hgap
      obtain ⟨q, tl, heq, -⟩ := mergeLoop_head (s, e) rest
      rw [heq]
      refine List.Chain'.cons ?_ (heq ▸ ih (s, e))
      show cur.2 + 1 < s
      omega

end FileSearch

namespace FileSearch

theorem merge_ranges_origin (rs : List (Int × Int)) (w : Int × Int)
    (hw : w ∈ merge_ranges rs) : ∃ r ∈ rs, r.1 = w.1 ∧ r.2 ≤ w.2 := by
  unfold merge_ranges at hw
  cases hs : sortRanges rs with
  | nil => rw [hs] at hw; cases hw
  | cons r0 rs0 =>
    rw [hs] at hw
    have hmem : ∀ x ∈ r0 :: rs0, x ∈ rs := by
      intro x hx
      exact (sortRanges_perm rs).mem_iff.mp (hs ▸ hx)
    rcases mergeLoop_origin r0 rs0 w hw with ⟨h1, h2⟩ | ⟨r, hr, h1, h2⟩
    · exact ⟨r0, hmem r0 (List.mem_cons_self _ _), h1.symm, h2⟩
    · exact ⟨r, hmem r (List.mem_cons_of_mem _ hr), h1.symm, h2⟩

theorem find_matches_hits_lt_length (compile : String → Bool → Option (String → Bool))
    (lines : List String) (pattern : String) (ur ic : Bool) (L : List Nat)
    (h : find_matches compile lines pattern ur ic = .hits L) :
    ∀ i ∈ L, i < lines.length := by
  cases ur with
  | false =>
    rw [find_matches_literal_eq] at h
    have hL : (lines.enum.filter (fun p => literalHit pattern p.2 ic)).map Prod.fst = L :=
      by injection h
    intro i hi
    exact filterIdx_lt_length lines _ i (hL ▸ hi)
  | true =>
    cases hcp : compile pattern ic with
    | none => rw [find_matches_regex_none compile lines pattern ic hcp] at h; cases h
    | some rx =>
      rw [find_matches_regex_eq compile lines pattern ic rx hcp] at h
      have hL : (lines.enum.filter (fun p => rx p.2)).map Prod.fst = L := by injection h
      intro i hi
      exact filterIdx_lt_length lines _ i (hL ▸ hi)

theorem buildRanges_mem_covers (n : Nat) (c : Int) (hc : 0 ≤ c) (hits : List Nat)
    (hbound : ∀ i ∈ hits, i < n) :
    ∀ w ∈ buildRanges n c hits, ∃ i ∈ hits, w.1 ≤ (i : Int) ∧ (i : Int) ≤ w.2 := by
  intro w hw
  rcases List.mem_map.mp hw with ⟨i, hi, rfl⟩
  have hb := hbound i hi
  refine ⟨i, hi, ?_, ?_⟩ <;> simp only [contextWindow] <;> omega

theorem processWindows_matchSet_ne_nil (fidx : Nat) (hits : List Nat) (maxM : Int) :
    ∀ (ranges : List (Int × Int)) (total : Int),
      (∀ w ∈ ranges, ∃ i ∈ hits, w.1 ≤ (i : Int) ∧ (i : Int) ≤ w.2) →
      ∀ rec ∈ (processWindows fidx hits maxM ranges total).1, rec.matchSet ≠ [] := by
  intro ranges
  induction ranges with
  | nil => intro total h rec hrec; simp [processWindows] at hrec
  | cons w rest ih =>
    intro total h rec hrec
    obtain ⟨s, e⟩ := w
    obtain ⟨i, hi, h1, h2⟩ : ∃ i ∈ hits, s ≤ (i : Int) ∧ (i : Int) ≤ e := by
      simpa using h (s, e) (List.mem_cons_self _ _)
    have hmem : i ∈ hits.filter
        (fun (i : Nat) => decide (s ≤ (i : Int)) && decide ((i : Int) ≤ e)) := by
      rw [List.mem_filter]
      exact ⟨hi, by simp [h1, h2]⟩
    have hne : hits.filter
        (fun (i : Nat) => decide (s ≤ (i : Int)) && decide ((i : Int) ≤ e)) ≠ [] :=
      List.ne_nil_of_mem hmem
    simp only [processWindows] at hrec
    split at hrec
    · simp only [List.mem_singleton] at hrec
      subst hrec
      exact hne
    · rcases List.mem_cons.mp hrec with rfl | hrec
      · exact hne
      · exact ih _ (fun v hv => h v (List.mem_cons_of_mem _ hv)) rec hrec

theorem processFile_matchSet_ne_nil (compile : String → Bool → Option (String → Bool))
    (args : Args) (fidx : Nat) (lines : List String) (total : Int)
    (ws : List WinRecord) (total' : Int) (stop : Bool) (hctx : 0 ≤ args.context)
    (h : processFile compile args fidx lines total = .ok (ws, total', stop)) :
    ∀ rec ∈ ws, rec.matchSet ≠ [] := by
  rcases processFile_ok_cases compile args fidx lines total ws total' stop h with
    ⟨rfl, -, -⟩ | ⟨hitIdxs, hfm, hne, hws, -, -⟩
  · intro rec hrec; cases hrec
  · have hbound := find_matches_hits_lt_length compile lines args.pattern args.useRegex
      args.ignoreCase hitIdxs hfm
    have hcov0 := buildRanges_mem_covers lines.length args.context hctx hitIdxs hbound
    have hcov : ∀ w ∈ (if args.noMerge then buildRanges lines.length args.context hitIdxs
        else merge_ranges (buildRanges lines.length args.context hitIdxs)),
        ∃ i ∈ hitIdxs, w.1 ≤ (i : Int) ∧ (i : Int) ≤ w.2 := by
      intro w hw
      by_cases hnm : args.noMerge
      · rw [if_pos hnm] at hw
        exact hcov0 w hw
      · rw [if_neg hnm] at hw
        obtain ⟨r, hr, h1, h2⟩ := merge_ranges_origin _ w hw
        obtain ⟨i, hi, hi1, hi2⟩ := hcov0 r hr
        exact ⟨i, hi, by omega, by omega⟩
    rw [hws]
    exact processWindows_matchSet_ne_nil fidx hitIdxs args.maxMatches _ total hcov

theorem runFiles_matchSet_ne_nil (compile : String → Bool → Option (String → Bool))
    (args : Args) (hctx : 0 ≤ args.context) :
    ∀ (files : List FileModel) (fidx : Nat) (total : Int),
      ∀ rec ∈ (runFiles compile args files fidx total).records, rec.matchSet ≠ [] := by
  intro files
  induction files with
  | nil => intro fidx total rec hrec; simp [runFiles] at hrec
  | cons f fs ih =>
    intro fidx total rec hrec
    cases hr : read_text_lines f with
    | raised => simp [runFiles, hr] at hrec
    | skipped =>
      simp only [runFiles, hr] at hrec
      exact ih (fidx + 1) total rec hrec
    | lines ls =>
      simp only [runFiles, hr] at hrec
      cases hp : processFile compile args fidx ls total with
      | error err => rw [hp] at hrec; cases hrec
      | ok res =>
        obtain ⟨ws, total', stop⟩ := res
        rw [hp] at hrec
        dsimp only at hrec
        cases stop with
        | true =>
          simp only [if_true] at hrec
          exact processFile_matchSet_ne_nil compile args fidx ls total ws total' true
            hctx hp rec hrec
        | false =>
          simp only [Bool.false_eq_true, if_false] at hrec
          rcases List.mem_append.mp hrec with hmem | hmem
          · exact processFile_matchSet_ne_nil compile args fidx ls total ws total' false
              hctx hp rec hmem
          · exact ih (fidx + 1) total' rec hmem

/-- C8 (amended): provided the configured context size is nonnegative,
every window block written by the run contains at least one matched line
position: its `MATCH_LINES` list is never empty, whether merging is
enabled or not.  (A negative `--context`, which the CLI accepts, produces
empty windows whose match list is empty.) -/
theorem claim_C8_amended_window_has_match (compile : String → Bool → Option (String → Bool))
    (args : Args) (files : List FileModel) (hctx : 0 ≤ args.context) :
    ∀ rec ∈ (runMain compile args files).records, rec.matchSet ≠ [] :=
  runFiles_matchSet_ne_nil compile args hctx files 0 0

/-- Witness for C8 (amended) on a run that writes one block with one
match. -/
theorem claim_C8_amended_window_has_match_witness :
    (0 : Int) ≤ 1 ∧
    (∀ rec ∈ (runMain (fun _ _ => none) ⟨"b", 1, false, false, false, 0⟩
        [⟨.ok ["a", "b", "c"], .ok []⟩]).records, rec.matchSet ≠ []) :=
  ⟨by decide,
   claim_C8_amended_window_has_match (fun _ _ => none) ⟨"b", 1, false, false, false, 0⟩
     [⟨.ok ["a", "b", "c"], .ok []⟩] (by decide)⟩

/-- Counterexample to C8 as stated: with `--context=-1` (accepted by the
CLI), a match on line 1 of a three-line file yields the clamped window
(2, 0), which is written with an empty `MATCH_LINES` list. -/
theorem claim_C8_counterexample :
    ((runMain (fun _ _ => none) ⟨"b", -1, false, false, false, 0⟩
        [⟨.ok ["a", "b", "c"], .ok []⟩]).records).map (fun r => r.matchSet) = [[]] ∧
    ((runMain (fun _ _ => none) ⟨"b", -1, false, false, false, 0⟩
        [⟨.ok ["a", "b", "c"], .ok []⟩]).records).map (fun r => r.win) = [(2, 0)] := by
  exact ⟨by decide, by decide⟩

end FileSearch

namespace FileSearch

theorem coveredBy_cons (w : Int × Int) (l : List (Int × Int)) (x : Int) :
    coveredBy (w :: l) x ↔ covers w x ∨ coveredBy l x := by
  simp [coveredBy]

theorem coveredBy_perm {l1 l2 : List (Int × Int)} (h : l1.Perm l2) (x : Int) :
    coveredBy l1 x ↔ coveredBy l2 x := by
  unfold coveredBy
  exact ⟨fun ⟨w, hw, hc⟩ => ⟨w, h.mem_iff.mp hw, hc⟩,
         fun ⟨w, hw, hc⟩ => ⟨w, h.mem_iff.mpr hw, hc⟩⟩

theorem mergeLoop_covers (cur : Int × Int) :
    ∀ l : List (Int × Int),
      (∀ r ∈ l, r.1 ≤ r.2) → cur.1 ≤ cur.2 →
      l.Pairwise (fun a b => a.1 ≤ b.1) → (∀ r ∈ l, cur.1 ≤ r.1) →
      ∀ x, coveredBy (mergeLoop cur l) x ↔ covers cur x ∨ coveredBy l x := by
  intro l
  induction l generalizing cur with
  | nil =>
    intro _ _ _ _ x
    simp [mergeLoop, coveredBy]
  | cons v rest ih =>
    intro hwf hcur hsort hlo x
    obtain ⟨s, e⟩ := v
    have hse : s ≤ e := hwf (s, e) (List.mem_cons_self _ _)
    have hcs : cur.1 ≤ s := hlo (s, e) (List.mem_cons_self _ _)
    rcases List.pairwise_cons.mp hsort with ⟨hhead, htail⟩
    simp only [mergeLoop]
    split
    · rename_i hle
      rw [ih (cur.1, max cur.2 e) (fun r hr => hwf r (List.mem_cons_of_mem _ hr))
          (by simp only [Prod.fst, Prod.snd]; omega) htail
          (fun r hr => le_trans hcs (hhead r hr))]
      rw [coveredBy_cons]
      have hcov : covers (cur.1, max cur.2 e) x ↔ covers cur x ∨ covers (s, e) x := by
        simp only [covers]
        omega
      rw [hcov]
      tauto
    · rename_i hgt
      rw [coveredBy_cons,
          ih (s, e) (fun r hr => hwf r (List.mem_cons_of_mem _ hr)) hse htail hhead,
          coveredBy_cons]

theorem mergeLoop_start_lb (c0 : Int) (cur : Int × Int) :
    ∀ l : List (Int × Int), c0 ≤ cur.1 → (∀ r ∈ l, c0 ≤ r.1) →
      ∀ w ∈ mergeLoop cur l, c0 ≤ w.1 := by
  intro l
  induction l generalizing cur with
  | nil =>
    intro hc _ w hw
    simp only [mergeLoop, List.mem_singleton] at hw
    subst hw
    exact hc
  | cons v rest ih =>
    intro hc hl w hw
    obtain ⟨s, e⟩ := v
    simp only [mergeLoop] at hw
    split at hw
    · exact ih (cur.1, max cur.2 e) hc (fun r hr => hl r (List.mem_cons_of_mem _ hr)) w hw
    · rcases List.mem_cons.mp hw with rfl | hw
      · exact hc
      · exact ih (s, e) (hl (s, e) (List.mem_cons_self _ _))
          (fun r hr => hl r (List.mem_cons_of_mem _ hr)) w hw

theorem mergeLoop_pairwise_gap (cur : Int × Int) :
    ∀ l : List (Int × Int),
      (∀ r ∈ l, r.1 ≤ r.2) → cur.1 ≤ cur.2 →
      l.Pairwise (fun a b => a.1 ≤ b.1) → (∀ r ∈ l, cur.1 ≤ r.1) →
      (mergeLoop cur l).Pairwise (fun a b => a.2 + 1 < b.1 ∧ a.1 < b.1) := by
  intro l
  induction l generalizing cur with
  | nil => intro _ _ _ _; simp [mergeLoop]
  | cons v rest ih =>
    intro hwf hcur hsort hlo
    obtain ⟨s, e⟩ := v
    have hse : s ≤ e := hwf (s, e) (List.mem_cons_self _ _)
    have hcs : cur.1 ≤ s := hlo (s, e) (List.mem_cons_self _ _)
    rcases List.pairwise_cons.mp hsort with ⟨hhead, htail⟩
    simp only [mergeLoop]
    split
    · rename_i hle
      exact ih (cur.1, max cur.2 e) (fun r hr => hwf r (List.mem_cons_of_mem _ hr))
        (by simp only [Prod.fst, Prod.snd]; omega) htail
        (fun r hr => le_trans hcs (hhead r hr))
    · rename_i hgt
      refine List.pairwise_cons.mpr
        ⟨?_, ih (s, e) (fun r hr => hwf r (List.mem_cons_of_mem _ hr)) hse htail hhead⟩
      intro w hw
      have hws : s ≤ w.1 := mergeLoop_start_lb s (s, e) rest (le_refl s) hhead w hw
      constructor <;> omega

/-- C1: for every list of integer windows with `start ≤ end`,
`merge_ranges` preserves the union of covered indices, returns windows
sorted in (strictly) ascending start order, and leaves a gap strictly
greater than 1 between consecutive windows (`next.start > prev.end + 1`). -/
theorem claim_C1_merge_ranges (rs : List (Int × Int)) (h : ∀ w ∈ rs, w.1 ≤ w.2) :
    (∀ x, coveredBy (merge_ranges rs) x ↔ coveredBy rs x) ∧
    (merge_ranges rs).Pairwise (fun a b => a.1 < b.1) ∧
    (merge_ranges rs).Chain' (fun a b => a.2 + 1 < b.1) := by
  unfold merge_ranges
  cases hs : sortRanges rs with
  | nil =>
    have hperm := sortRanges_perm rs
    rw [hs] at hperm
    have : rs = [] := (hperm.symm).eq_nil
    subst this
    refine ⟨fun x => Iff.rfl, by simp, by simp⟩
  | cons r0 rs0 =>
    have hperm := sortRanges_perm rs
    rw [hs] at hperm
    have hsorted := sortRanges_sorted rs
    rw [hs] at hsorted
    have hwf : ∀ r ∈ r0 :: rs0, r.1 ≤ r.2 := fun r hr => h r (hperm.mem_iff.mp hr)
    have hfst : (r0 :: rs0).Pairwise (fun a b => a.1 ≤ b.1) := by
      refine hsorted.imp ?_
      intro a b hab
      rw [lexLe_iff] at hab
      omega
    rcases List.pairwise_cons.mp hfst with ⟨hhead, htail⟩
    have hwf0 : r0.1 ≤ r0.2 := hwf r0 (List.mem_cons_self _ _)
    have hwfrest : ∀ r ∈ rs0, r.1 ≤ r.2 := fun r hr => hwf r (List.mem_cons_of_mem _ hr)
    refine ⟨?_, ?_, mergeLoop_chain_gap r0 rs0⟩
    · intro x
      rw [mergeLoop_covers r0 rs0 hwfrest hwf0 htail hhead x, ← coveredBy_cons]
      exact coveredBy_perm hperm x
    · exact (mergeLoop_pairwise_gap r0 rs0 hwfrest hwf0 htail hhead).imp
        (fun hab => hab.2)

/-- Witness for C1 at the window list [(1,3), (5,7), (2,4)]. -/
theorem claim_C1_merge_ranges_witness :
    (∀ w ∈ [((1 : Int), (3 : Int)), (5, 7), (2, 4)], w.1 ≤ w.2) ∧
    ((∀ x, coveredBy (merge_ranges [((1 : Int), (3 : Int)), (5, 7), (2, 4)]) x ↔
        coveredBy [((1 : Int), (3 : Int)), (5, 7), (2, 4)] x) ∧
     (merge_ranges [((1 : Int), (3 : Int)), (5, 7), (2, 4)]).Pairwise
        (fun a b => a.1 < b.1) ∧
     (merge_ranges [((1 : Int), (3 : Int)), (5, 7), (2, 4)]).Chain'
        (fun a b => a.2 + 1 < b.1)) :=
  ⟨by decide, claim_C1_merge_ranges [((1 : Int), (3 : Int)), (5, 7), (2, 4)] (by decide)⟩

end FileSearch

namespace FileSearch

theorem mergeLoop_sorted_lex (cur : Int × Int) :
    ∀ l : List (Int × Int), (cur :: l).Pairwise (fun a b => lexLe a b = true) →
      (mergeLoop cur l).Pairwise (fun a b => lexLe a b = true) := by
  intro l
  induction l generalizing cur with
  | nil => intro _; simp [mergeLoop]
  | cons v rest ih =>
    intro hp
    obtain ⟨s, e⟩ := v
    rcases List.pairwise_cons.mp hp with ⟨hcurall, htail⟩
    rcases List.pairwise_cons.mp htail with ⟨hseall, hrest⟩
    have h3 := hcurall (s, e) (List.mem_cons_self _ _)
    simp only [mergeLoop]
    split
    · rename_i hle
      apply ih (cur.1, max cur.2 e)
      refine List.pairwise_cons.mpr ⟨?_, hrest⟩
      intro r hr
      have h1 := hcurall r (List.mem_cons_of_mem _ hr)
      have h2 := hseall r hr
      rw [lexLe_iff] at h1 h2 h3 ⊢
      omega
    · rename_i hgt
      refine List.pairwise_cons.mpr ⟨?_, ih (s, e) htail⟩
      intro w hw
      rcases mergeLoop_origin (s, e) rest w hw with ⟨h1, h2⟩ | ⟨r, hr, h1, h2⟩
      · rw [lexLe_iff] at h3 ⊢
        omega
      · have h4 := hcurall r (List.mem_cons_of_mem _ hr)
        rw [lexLe_iff] at h4 ⊢
        omega

theorem mergeLoop_eq_of_gap (cur : Int × Int) :
    ∀ l : List (Int × Int), (cur :: l).Chain' (fun a b => a.2 + 1 < b.1) →
      mergeLoop cur l = cur :: l := by
  intro l
  induction l generalizing cur with
  | nil => intro _; rfl
  | cons v rest ih =>
    intro h
    obtain ⟨s, e⟩ := v
    rcases List.chain'_cons.mp h with ⟨hab, htail⟩
    simp only [mergeLoop]
    rw [if_neg (by omega)]
    rw [ih (s, e) htail]

/-- C6: `merge_ranges` is idempotent — applying it to its own output
returns that output unchanged, for every input window list. -/
theorem claim_C6_merge_ranges_idempotent (rs : List (Int × Int)) :
    merge_ranges (merge_ranges rs) = merge_ranges rs := by
  cases hs : sortRanges rs with
  | nil =>
    have h1 : merge_ranges rs = [] := by unfold merge_ranges; rw [hs]
    rw [h1]
    rfl
  | cons r0 rs0 =>
    have hout : merge_ranges rs = mergeLoop r0 rs0 := by unfold merge_ranges; rw [hs]
    have hsorted := sortRanges_sorted rs
    rw [hs] at hsorted
    have hlex : (mergeLoop r0 rs0).Pairwise (fun a b => lexLe a b = true) :=
      mergeLoop_sorted_lex r0 rs0 hsorted
    have hchain : (mergeLoop r0 rs0).Chain' (fun a b => a.2 + 1 < b.1) :=
      mergeLoop_chain_gap r0 rs0
    rw [hout]
    obtain ⟨q, tl, heq, -⟩ := mergeLoop_head r0 rs0
    unfold merge_ranges
    rw [sortRanges_eq_of_sorted _ hlex, heq]
    show mergeLoop (r0.1, q) tl = (r0.1, q) :: tl
    exact mergeLoop_eq_of_gap (r0.1, q) tl (heq ▸ hchain)

end FileSearch
